import Mathlib

/-!
Verification of the stronghold locator core (`enderportal.py`).

The Python source is embedded shallowly:

* Python unbounded `int` becomes `ℤ` (or `ℕ` where the source value is
  provably non-negative); Python's `%` with a positive modulus agrees with
  `Int.emod`, and Python's `&` / `^` on arbitrary integers are the
  two's-complement `Int.land` / `Int.xor`.
* Python `float` values produced by `rng_double` are exact: the numerator
  `new_seed >> 22` has at most 26 bits, so the IEEE-754 division by `2^26`
  is exact and the value is embedded as the rational it denotes.
* Coordinates, radii and distances flow through `math.cos` / `math.sin` /
  `math.sqrt`; these are embedded over `ℝ` (`Real.cos`, `Real.sin`,
  `Real.sqrt`).  A Python float datum that may be a NaN is embedded as
  `PyF`, a real number or a NaN marker; arithmetic propagates NaN and
  every comparison involving NaN is false, as in IEEE-754 / Python.
-/

/-- `RING_STRONGHOLDS = [3, 6, 10, 15, 21, 28, 36, 9]` from the source:
the number of strongholds in each of the 8 rings. -/
def RING_STRONGHOLDS : List ℕ := [3, 6, 10, 15, 21, 28, 36, 9]

/-- `RING_RADII`: inner/outer radius (in blocks) for each ring, from the
source.  The entries are Python `int` literals, embedded as `ℤ`. -/
def RING_RADII : List (ℤ × ℤ) :=
  [(1408, 2688), (4480, 5760), (7552, 8832), (10624, 11904),
   (13696, 14976), (16768, 18048), (19840, 21120), (22912, 24192)]

/-- The characters Python's `int(str)` strips from both ends of its
argument (`str.strip()` whitespace, restricted to the ASCII range). -/
def isPyWhitespace (c : Char) : Bool :=
  c == ' ' || c == '\t' || c == '\n' || c == '\x0d' || c == '\x0b' || c == '\x0c'

/-- Value of a list of decimal digit characters, most significant first
(the usual positional reading used by Python's `int`). -/
def digitsToNat (ds : List Char) : ℕ :=
  ds.foldl (fun acc c => 10 * acc + (c.toNat - '0'.toNat)) 0

/-- Validity of the digit part of a Python decimal integer literal:
non-empty, made of ASCII digits and underscores, where every underscore
sits between two digits (first and last characters are digits and no two
underscores are adjacent). -/
def pyDigitsValid (l : List Char) : Bool :=
  (match l.head? with | some c => c.isDigit | none => false) &&
  (match l.getLast? with | some c => c.isDigit | none => false) &&
  l.all (fun c => c.isDigit || c == '_') &&
  (l.zip l.tail).all (fun p => !(p.1 == '_' && p.2 == '_'))

/-- Embeds Python's built-in `int(s)` for base-10 strings, as used by the
`int(s)` call in `java_like_seed_from_string`: optional surrounding
whitespace, an optional sign, then a non-empty underscore-grouped ASCII
digit sequence.  Returns `none` where Python raises `ValueError`. -/
def pyIntParse (s : String) : Option ℤ :=
  let l := ((s.toList.dropWhile isPyWhitespace).reverse.dropWhile isPyWhitespace).reverse
  let signAndDigits : ℤ × List Char :=
    match l with
    | c :: rest =>
        if c == '+' then (1, rest) else if c == '-' then (-1, rest) else (1, l)
    | [] => (1, l)
  if pyDigitsValid signAndDigits.2 then
    some (signAndDigits.1 *
      (digitsToNat (signAndDigits.2.filter (fun c => !(c == '_'))) : ℤ))
  else none

/-- `java_like_seed_from_string` from the source.  The `try: return int(s)`
branch is the parse above; otherwise the deterministic hash
`h = (31*h + ord(ch)) & 0xFFFFFFFFFFFFFFFF` starting from the prime
`1125899906842597`, reinterpreted into the signed 64-bit range. -/
def java_like_seed_from_string (s : String) : ℤ :=
  match pyIntParse s with
  | some n => n
  | none =>
      let h : ℕ := s.toList.foldl
        (fun h ch => (31 * h + ch.toNat) &&& 0xFFFFFFFFFFFFFFFF) 1125899906842597
      if h ≥ 2 ^ 63 then (h : ℤ) - 2 ^ 63 * 2 else (h : ℤ)

/-- `rng_next` from the source: the 48-bit LCG step
`(a * (seed & (m - 1)) + c) % m` with `a = 25214903917`, `c = 11`,
`m = 2^48`, on arbitrary Python integers. -/
def rng_next (seed : ℤ) : ℤ :=
  let a : ℤ := 25214903917
  let c : ℤ := 11
  let m : ℤ := 2 ^ 48
  (a * (Int.land seed (m - 1)) + c) % m

/-- `rng_double` from the source: advance the LCG, then
`value = (new_seed >> 22) / float(1 << 26)`.  The numerator has at most
26 bits so the Python float division is exact; `value` is embedded as
that exact rational. -/
def rng_double (seed : ℤ) : ℚ × ℤ :=
  let new_seed := rng_next seed
  let value : ℚ := ((new_seed >>> (22 : ℤ) : ℤ) : ℚ) / (((1 <<< 26 : ℤ)) : ℚ)
  (value, new_seed)

/-- The internal RNG state `generate_strongholds` starts from:
`(base_seed ^ 0x5DEECE66D) & ((1 << 48) - 1)`. -/
def initial_internal_seed (base_seed : ℤ) : ℤ :=
  Int.land (Int.xor base_seed 0x5DEECE66D) ((1 <<< 48 : ℤ) - 1)

/-- A Python float datum: a (finite) real value, or NaN.  Arithmetic on
`PyF` propagates NaN and every ordered comparison involving NaN is
false, as in IEEE-754 / Python. -/
inductive PyF where
  | nan : PyF
  | fin : ℝ → PyF

/-- Python float subtraction (`x2 - x1` in `distance`), NaN-propagating. -/
noncomputable def PyF.sub : PyF → PyF → PyF
  | fin a, fin b => fin (a - b)
  | _, _ => nan

/-- Python float addition (`dx*dx + dz*dz` in `distance`), NaN-propagating. -/
noncomputable def PyF.add : PyF → PyF → PyF
  | fin a, fin b => fin (a + b)
  | _, _ => nan

/-- Python float multiplication, NaN-propagating. -/
noncomputable def PyF.mul : PyF → PyF → PyF
  | fin a, fin b => fin (a * b)
  | _, _ => nan

/-- `math.sqrt`: NaN propagates to NaN.  In this program every finite
argument is a sum of squares, so Python's domain error for negative
finite arguments is unreachable. -/
noncomputable def PyF.sqrt : PyF → PyF
  | fin a => fin (Real.sqrt a)
  | nan => nan

/-- Python `<=` on floats: false whenever either operand is NaN. -/
noncomputable def PyF.leb : PyF → PyF → Bool
  | fin a, fin b => decide (a ≤ b)
  | _, _ => false

/-- `distance` from the source: Euclidean distance
`sqrt(dx*dx + dz*dz)` on Python floats. -/
noncomputable def distance (x1 z1 x2 z2 : PyF) : PyF :=
  let dx := x2.sub x1
  let dz := z2.sub z1
  ((dx.mul dx).add (dz.mul dz)).sqrt

/-- A stronghold record as produced by `generate_strongholds`:
`{"ring": …, "index": …, "x": …, "z": …, "radius": …}`. -/
structure Landmark where
  ring : ℕ
  index : ℕ
  x : PyF
  z : PyF
  radius : PyF

/-- An entry of the list returned by `find_nearby_strongholds`: a copy
`dict(sh)` of a stronghold record with the added `"distance"` key. -/
structure QueryResult where
  ring : ℕ
  index : ℕ
  x : PyF
  z : PyF
  radius : PyF
  distance : PyF

/-- The stronghold fields of a query result (the `dict(sh)` copy, with
the added `"distance"` key removed again). -/
def QueryResult.toLandmark (r : QueryResult) : Landmark :=
  ⟨r.ring, r.index, r.x, r.z, r.radius⟩

/-- `entry = dict(sh); entry["distance"] = d` from the source. -/
def QueryResult.ofLandmark (sh : Landmark) (d : PyF) : QueryResult :=
  ⟨sh.ring, sh.index, sh.x, sh.z, sh.radius, d⟩

/-- The sort key comparison `key=lambda s: s["distance"]` of
`find_nearby_strongholds`: compare results by their distance field. -/
noncomputable def distLeb (r s : QueryResult) : Bool :=
  r.distance.leb s.distance

/-- A query result whose distance field is finite (not NaN). -/
def FinDist (r : QueryResult) : Prop :=
  ∃ v : ℝ, r.distance = PyF.fin v

/-- `distLeb` restricted to results with finite distances, on which it is
a total preorder. -/
noncomputable def distLebSub (a b : {r : QueryResult // FinDist r}) : Bool :=
  distLeb a.1 b.1

/-- The `results` list of `find_nearby_strongholds` as it stands just
before the final in-place sort: one entry per stronghold whose distance
to the player passes `d <= max_distance`, in input order. -/
noncomputable def kept_results (strongholds : List Landmark)
    (player_x player_z max_distance : PyF) : List QueryResult :=
  strongholds.filterMap (fun sh =>
    let d := distance player_x player_z sh.x sh.z
    if d.leb max_distance then some (QueryResult.ofLandmark sh d) else none)

/-- `find_nearby_strongholds` from the source: filter by
`d <= max_distance`, then `results.sort(key=lambda s: s["distance"])`
(a stable ascending sort, embedded as the stable `List.mergeSort`). -/
noncomputable def find_nearby_strongholds (strongholds : List Landmark)
    (player_x player_z max_distance : PyF) : List QueryResult :=
  (kept_results strongholds player_x player_z max_distance).mergeSort distLeb

/-- One iteration of the inner `for i in range(count)` loop of
`generate_strongholds`, acting on the accumulated stronghold list and
the threaded RNG state. -/
noncomputable def ring_step (ring_index count : ℕ) (radius base_angle : ℝ)
    (st : List Landmark × ℤ) (i : ℕ) : List Landmark × ℤ :=
  let (jitter_frac, s') := rng_double st.2
  let jitter : ℝ := ((jitter_frac : ℝ) - 0.5) * (2 * Real.pi / (count : ℝ) * 0.4)
  let angle : ℝ := base_angle + (2.0 * Real.pi * (i : ℝ) / (count : ℝ)) + jitter
  let x := radius * Real.cos angle
  let z := radius * Real.sin angle
  (st.1 ++ [⟨ring_index, i, PyF.fin x, PyF.fin z, PyF.fin radius⟩], s')

/-- One ring of `generate_strongholds`: draw the ring radius and the
base rotation, then place `count` strongholds around the ring. -/
noncomputable def gen_ring (ring_index count : ℕ) (r_min r_max : ℤ)
    (st : List Landmark × ℤ) : List Landmark × ℤ :=
  let (frac, s1) := rng_double st.2
  let radius : ℝ := (r_min : ℝ) + (frac : ℝ) * ((r_max : ℝ) - (r_min : ℝ))
  let (base_angle_frac, s2) := rng_double s1
  let base_angle : ℝ := (base_angle_frac : ℝ) * 2.0 * Real.pi
  (List.range count).foldl (ring_step ring_index count radius base_angle) (st.1, s2)

/-- The whole generation loop of `generate_strongholds` over the static
ring configuration, returning the stronghold list together with the
final internal RNG state. -/
noncomputable def generate_strongholds_run (seed_input : String) :
    List Landmark × ℤ :=
  let base_seed := java_like_seed_from_string seed_input
  ((RING_STRONGHOLDS.zip RING_RADII).enum).foldl
    (fun st entry => gen_ring entry.1 entry.2.1 entry.2.2.1 entry.2.2.2 st)
    ([], initial_internal_seed base_seed)

/-- `generate_strongholds` from the source. -/
noncomputable def generate_strongholds (seed_input : String) : List Landmark :=
  (generate_strongholds_run seed_input).1

/-- The `(ring, index)` labels generation produces, read off the static
configuration: ring order, then index order within each ring. -/
def ringIndexPairs : List (ℕ × ℕ) :=
  (RING_STRONGHOLDS.enum).flatMap (fun e => (List.range e.2).map (fun i => (e.1, i)))

/-! ### Character and parsing lemmas for the seed normalizer -/

/-- A decimal digit is not whitespace, not a sign, and not an underscore. -/
theorem digit_char_facts {c : Char} (h : c.isDigit = true) :
    isPyWhitespace c = false ∧ (c == '+') = false ∧ (c == '-') = false ∧ (c == '_') = false := by
  simp only [Char.isDigit, ge_iff_le, Bool.and_eq_true, decide_eq_true_eq] at h
  obtain ⟨h1, h2⟩ := h
  refine ⟨?_, ?_, ?_, ?_⟩
  · simp only [isPyWhitespace, Bool.or_eq_false_iff, beq_eq_false_iff_ne]
    refine ⟨⟨⟨⟨⟨?_, ?_⟩, ?_⟩, ?_⟩, ?_⟩, ?_⟩ <;>
      · intro hc; subst hc; revert h1 h2; decide
  · rw [beq_eq_false_iff_ne]; intro hc; subst hc; revert h1 h2; decide
  · rw [beq_eq_false_iff_ne]; intro hc; subst hc; revert h1 h2; decide
  · rw [beq_eq_false_iff_ne]; intro hc; subst hc; revert h1 h2; decide

theorem dropWhile_ws_eq_self (l : List Char) (h : ∀ c ∈ l, isPyWhitespace c = false) :
    l.dropWhile isPyWhitespace = l := by
  cases l with
  | nil => rfl
  | cons c t =>
    rw [List.dropWhile_cons, h c (List.mem_cons_self c t)]
    simp

theorem strip_ws_eq_self (l : List Char) (h : ∀ c ∈ l, isPyWhitespace c = false) :
    ((l.dropWhile isPyWhitespace).reverse.dropWhile isPyWhitespace).reverse = l := by
  rw [dropWhile_ws_eq_self l h,
    dropWhile_ws_eq_self l.reverse (fun c hc => h c (List.mem_reverse.mp hc)),
    List.reverse_reverse]

theorem pyDigitsValid_of_digits (ds : List Char) (hne : ds ≠ [])
    (hdig : ∀ c ∈ ds, c.isDigit = true) : pyDigitsValid ds = true := by
  simp only [pyDigitsValid, Bool.and_eq_true]
  refine ⟨⟨⟨?_, ?_⟩, ?_⟩, ?_⟩
  · cases ds with
    | nil => exact absurd rfl hne
    | cons c t => simpa using hdig c (List.mem_cons_self c t)
  · rw [List.getLast?_eq_getLast ds hne]
    exact hdig _ (List.getLast_mem hne)
  · rw [List.all_eq_true]
    intro x hx
    simp [hdig x hx]
  · rw [List.all_eq_true]
    intro p hp
    obtain ⟨a, b⟩ := p
    have hm := List.of_mem_zip hp
    simp [(digit_char_facts (hdig a hm.1)).2.2.2]

theorem filter_no_underscore (ds : List Char) (hdig : ∀ c ∈ ds, c.isDigit = true) :
    ds.filter (fun c => !(c == '_')) = ds := by
  rw [List.filter_eq_self]
  intro a ha
  simp [(digit_char_facts (hdig a ha)).2.2.2]

/-- On a plain signed decimal digit string, `pyIntParse` succeeds with the
positional value of the digits, carrying the sign. -/
theorem pyIntParse_digits (ds : List Char) (hne : ds ≠ [])
    (hdig : ∀ c ∈ ds, c.isDigit = true) :
    pyIntParse (String.mk ds) = some (digitsToNat ds)
    ∧ pyIntParse (String.mk ('-' :: ds)) = some (-(digitsToNat ds : ℤ))
    ∧ pyIntParse (String.mk ('+' :: ds)) = some (digitsToNat ds) := by
  have hnotws : ∀ c ∈ ds, isPyWhitespace c = false :=
    fun c hc => (digit_char_facts (hdig c hc)).1
  have hvalid := pyDigitsValid_of_digits ds hne hdig
  have hfilter := filter_no_underscore ds hdig
  obtain ⟨c, t, rfl⟩ : ∃ c t, ds = c :: t := by
    cases ds with
    | nil => exact absurd rfl hne
    | cons c t => exact ⟨c, t, rfl⟩
  have hc := digit_char_facts (hdig c (List.mem_cons_self c t))
  refine ⟨?_, ?_, ?_⟩
  · show pyIntParse (String.mk (c :: t)) = _
    simp only [pyIntParse, show (String.mk (c :: t)).toList = c :: t from rfl,
      strip_ws_eq_self _ hnotws, hc.2.1, hc.2.2.1]
    simp [hvalid, hfilter]
  · show pyIntParse (String.mk ('-' :: c :: t)) = _
    have hnotws2 : ∀ x ∈ '-' :: c :: t, isPyWhitespace x = false := by
      intro x hx
      rcases List.mem_cons.mp hx with rfl | hx
      · decide
      · exact hnotws x hx
    simp only [pyIntParse, show (String.mk ('-' :: c :: t)).toList = '-' :: c :: t from rfl,
      strip_ws_eq_self _ hnotws2]
    simp [hvalid, hfilter]
  · show pyIntParse (String.mk ('+' :: c :: t)) = _
    have hnotws2 : ∀ x ∈ '+' :: c :: t, isPyWhitespace x = false := by
      intro x hx
      rcases List.mem_cons.mp hx with rfl | hx
      · decide
      · exact hnotws x hx
    simp only [pyIntParse, show (String.mk ('+' :: c :: t)).toList = '+' :: c :: t from rfl,
      strip_ws_eq_self _ hnotws2]
    simp [hvalid, hfilter]

/-! ### Bounds for the hash path and the LCG -/

/-- The 64-bit masked hash loop keeps its accumulator below `2^64`. -/
theorem hash_fold_lt : ∀ (l : List Char) (h0 : ℕ), h0 < 2 ^ 64 →
    l.foldl (fun h ch => (31 * h + ch.toNat) &&& 0xFFFFFFFFFFFFFFFF) h0 < 2 ^ 64
  | [], h0, hh => by simpa using hh
  | c :: t, h0, _ => by
    rw [List.foldl_cons]
    refine hash_fold_lt t _ ?_
    rw [show (0xFFFFFFFFFFFFFFFF : ℕ) = 2 ^ 64 - 1 from by norm_num,
      Nat.and_pow_two_sub_one_eq_mod]
    exact Nat.mod_lt _ (by norm_num)

theorem int_land_natCast (m k : ℕ) :
    Int.land (↑m) (↑k) = ((m &&& k : ℕ) : ℤ) := rfl

theorem int_land_negSucc_natCast (m k : ℕ) :
    Int.land (Int.negSucc m) (↑k) = ((Nat.ldiff k m : ℕ) : ℤ) := rfl

theorem pow48_mask_eq : (2 : ℤ) ^ 48 - 1 = ((2 ^ 48 - 1 : ℕ) : ℤ) := by decide

theorem shl48_mask_eq : (1 <<< 48 : ℤ) - 1 = ((2 ^ 48 - 1 : ℕ) : ℤ) := by decide

theorem nat_ldiff_mask_lt (m n : ℕ) : Nat.ldiff (2 ^ n - 1) m < 2 ^ n := by
  apply Nat.lt_pow_two_of_testBit
  intro i hi
  rw [Nat.testBit_ldiff]
  have : ¬ i < n := by omega
  simp [Nat.testBit_two_pow_sub_one, this]

theorem int_land_mask_nonneg (x : ℤ) : 0 ≤ Int.land x ((2 ^ 48 - 1 : ℕ) : ℤ) := by
  cases x with
  | ofNat m => rw [show (Int.ofNat m) = ((m : ℕ) : ℤ) from rfl, int_land_natCast]
               exact Int.natCast_nonneg _
  | negSucc m => rw [int_land_negSucc_natCast]
                 exact Int.natCast_nonneg _

theorem int_land_mask_lt (x : ℤ) : Int.land x ((2 ^ 48 - 1 : ℕ) : ℤ) < 2 ^ 48 := by
  cases x with
  | ofNat m =>
      rw [show (Int.ofNat m) = ((m : ℕ) : ℤ) from rfl, int_land_natCast]
      have hm : m &&& 2 ^ 48 - 1 < 2 ^ 48 := by
        rw [Nat.and_pow_two_sub_one_eq_mod]
        exact Nat.mod_lt _ (by norm_num)
      exact_mod_cast hm
  | negSucc m =>
      rw [int_land_negSucc_natCast]
      exact_mod_cast nat_ldiff_mask_lt m 48

/-- For an in-range state, the source's 48-bit mask is the identity. -/
theorem int_land_mask_self {s : ℤ} (h0 : 0 ≤ s) (h1 : s < 2 ^ 48) :
    Int.land s ((2 : ℤ) ^ 48 - 1) = s := by
  obtain ⟨m, rfl⟩ := Int.eq_ofNat_of_zero_le h0
  rw [pow48_mask_eq, int_land_natCast,
    Nat.and_pow_two_sub_one_of_lt_two_pow (by exact_mod_cast h1)]

theorem rng_next_nonneg (seed : ℤ) : 0 ≤ rng_next seed := by
  show 0 ≤ (25214903917 * Int.land seed ((2 : ℤ) ^ 48 - 1) + 11) % (2 : ℤ) ^ 48
  exact Int.emod_nonneg _ (by norm_num)

theorem rng_next_lt (seed : ℤ) : rng_next seed < 2 ^ 48 := by
  show (25214903917 * Int.land seed ((2 : ℤ) ^ 48 - 1) + 11) % (2 : ℤ) ^ 48 < 2 ^ 48
  exact Int.emod_lt_of_pos _ (by norm_num)

theorem initial_internal_seed_range (b : ℤ) :
    0 ≤ initial_internal_seed b ∧ initial_internal_seed b < 2 ^ 48 := by
  unfold initial_internal_seed
  rw [shl48_mask_eq]
  exact ⟨int_land_mask_nonneg _, int_land_mask_lt _⟩

theorem int_shiftRight22 (k : ℕ) : ((k : ℤ) >>> (22 : ℤ)) = ((k >>> 22 : ℕ) : ℤ) := rfl

/-- The unit float drawn by `rng_double`, written over the shifted value
of the advanced state. -/
theorem rng_double_val (s : ℤ) :
    (rng_double s).1 = (((rng_next s).toNat >>> 22 : ℕ) : ℚ) / (2 ^ 26 : ℚ) := by
  obtain ⟨k, hk⟩ := Int.eq_ofNat_of_zero_le (rng_next_nonneg s)
  simp only [rng_double]
  rw [hk, int_shiftRight22, show (1 <<< 26 : ℤ) = 67108864 from by decide,
    Int.toNat_natCast]
  push_cast
  norm_num

theorem rng_double_unit (s : ℤ) : 0 ≤ (rng_double s).1 ∧ (rng_double s).1 < 1 := by
  rw [rng_double_val]
  constructor
  · positivity
  · rw [div_lt_one (by norm_num)]
    have hk : (rng_next s).toNat < 2 ^ 48 := by
      have h1 := rng_next_lt s
      have h2 := rng_next_nonneg s
      omega
    have hsh : (rng_next s).toNat >>> 22 < 2 ^ 26 := by
      rw [Nat.shiftRight_eq_div_pow, Nat.div_lt_iff_lt_mul (by norm_num)]
      exact lt_of_lt_of_le hk (by norm_num)
    exact_mod_cast hsh

/-! ### Claim theorems: seed normalizer and sequence generator -/

/-- C2: for every 48-bit state `s`, `rng_next` returns exactly
`(25214903917 * s + 11) mod 2^48`, and `rng_double` applied to `s`
returns the pair `(value, state')` with `state' = rng_next s` and
`value = (state' >> 22) / 2^26`, a value lying in `[0, 1)`. -/
theorem rng_advance_and_unit_float_spec (s : ℤ) (h0 : 0 ≤ s) (h1 : s < 2 ^ 48) :
    rng_next s = (25214903917 * s + 11) % 2 ^ 48
    ∧ (rng_double s).2 = rng_next s
    ∧ (rng_double s).1 = ((rng_next s / 2 ^ 22 : ℤ) : ℚ) / (2 ^ 26 : ℚ)
    ∧ 0 ≤ (rng_double s).1 ∧ (rng_double s).1 < 1 := by
  refine ⟨?_, rfl, ?_, (rng_double_unit s).1, (rng_double_unit s).2⟩
  · show (25214903917 * Int.land s ((2 : ℤ) ^ 48 - 1) + 11) % (2 : ℤ) ^ 48 = _
    rw [int_land_mask_self h0 h1]
  · rw [rng_double_val]
    congr 1
    obtain ⟨k, hk⟩ := Int.eq_ofNat_of_zero_le (rng_next_nonneg s)
    rw [hk, Int.toNat_natCast, Nat.shiftRight_eq_div_pow]
    norm_cast

/-- Witness for C2 at the in-range state `s = 12345`. -/
theorem rng_advance_and_unit_float_spec_witness :
    (0 : ℤ) ≤ 12345 ∧ (12345 : ℤ) < 2 ^ 48
    ∧ rng_next 12345 = (25214903917 * 12345 + 11) % 2 ^ 48 := by
  have h := rng_advance_and_unit_float_spec 12345 (by norm_num) (by norm_num)
  exact ⟨by norm_num, by norm_num, h.1⟩

/-- C6 counterexample: the numeric passthrough of
`java_like_seed_from_string` is Python's unbounded `int`, so the string
`"9223372036854775808"` (that is, `2^63`) is returned verbatim and lies
outside the signed 64-bit range `[-2^63, 2^63)`. -/
theorem java_like_seed_int64_counterexample :
    java_like_seed_from_string "9223372036854775808" = 2 ^ 63
    ∧ ¬ java_like_seed_from_string "9223372036854775808" < 2 ^ 63 := by
  constructor
  · decide
  · decide

/-- C6 amended: on every input string that does not parse as a base-10
integer literal (the hash path of `java_like_seed_from_string`), the
result lies in the signed 64-bit range `[-2^63, 2^63)`; strings that do
parse are returned verbatim and may lie outside that range. -/
theorem java_like_seed_hash_path_int64 (s : String) (h : pyIntParse s = none) :
    -(2 ^ 63) ≤ java_like_seed_from_string s
    ∧ java_like_seed_from_string s < 2 ^ 63 := by
  have hb := hash_fold_lt s.toList 1125899906842597 (by norm_num)
  simp only [java_like_seed_from_string, h]
  split
  · constructor
    · have h63 : 2 ^ 63 ≤
          s.toList.foldl (fun h ch => (31 * h + ch.toNat) &&& 0xFFFFFFFFFFFFFFFF)
            1125899906842597 := by assumption
      norm_num at hb h63 ⊢
      omega
    · norm_num at hb ⊢
      omega
  · constructor
    · exact le_trans (by norm_num) (Int.natCast_nonneg _)
    · have h63 : ¬ 2 ^ 63 ≤
          s.toList.foldl (fun h ch => (31 * h + ch.toNat) &&& 0xFFFFFFFFFFFFFFFF)
            1125899906842597 := by assumption
      norm_num at h63 ⊢
      omega

/-- Witness for C6 amended at the non-numeric string `"steve"`. -/
theorem java_like_seed_hash_path_int64_witness :
    pyIntParse "steve" = none
    ∧ -(2 ^ 63) ≤ java_like_seed_from_string "steve"
    ∧ java_like_seed_from_string "steve" < 2 ^ 63 := by
  have h := java_like_seed_hash_path_int64 "steve" (by decide)
  exact ⟨by decide, h.1, h.2⟩

/-- C7: every string that parses as an optionally signed base-10 integer
is passed through verbatim by `java_like_seed_from_string`: an unsigned
digit string yields its positional value exactly, and a `-`/`+` sign is
honoured, with no truncation or rounding. -/
theorem java_like_seed_numeric_passthrough (ds : List Char) (hne : ds ≠ [])
    (hdig : ∀ c ∈ ds, c.isDigit = true) :
    java_like_seed_from_string (String.mk ds) = (digitsToNat ds : ℤ)
    ∧ java_like_seed_from_string (String.mk ('-' :: ds)) = -(digitsToNat ds : ℤ)
    ∧ java_like_seed_from_string (String.mk ('+' :: ds)) = (digitsToNat ds : ℤ) := by
  obtain ⟨p1, p2, p3⟩ := pyIntParse_digits ds hne hdig
  exact ⟨by simp [java_like_seed_from_string, p1],
    by simp [java_like_seed_from_string, p2],
    by simp [java_like_seed_from_string, p3]⟩

/-- Witness for C7: `normalize("42") = 42` and `normalize("-7") = -7`. -/
theorem java_like_seed_numeric_passthrough_witness :
    java_like_seed_from_string "42" = 42 ∧ java_like_seed_from_string "-7" = -7 := by
  have h1 := java_like_seed_numeric_passthrough ['4', '2'] (by decide) (by decide)
  have h2 := java_like_seed_numeric_passthrough ['7'] (by decide) (by decide)
  constructor
  · rw [show ("42" : String) = String.mk ['4', '2'] from rfl, h1.1]
    decide
  · rw [show ("-7" : String) = String.mk ['-', '7'] from rfl, h2.2.1]
    decide

/-! ### Structure of the generation loop -/

theorem rng_double_snd (s : ℤ) : (rng_double s).2 = rng_next s := rfl

theorem ring_step_snd (ring_index count : ℕ) (radius base_angle : ℝ)
    (st : List Landmark × ℤ) (i : ℕ) :
    (ring_step ring_index count radius base_angle st i).2 = rng_next st.2 := rfl

/-- Each inner-loop iteration appends exactly one stronghold, tagged with
the current ring and index and carrying the ring's radius. -/
theorem ring_step_fst (ring_index count : ℕ) (radius base_angle : ℝ)
    (st : List Landmark × ℤ) (i : ℕ) :
    ∃ x z : ℝ, (ring_step ring_index count radius base_angle st i).1
      = st.1 ++ [⟨ring_index, i, PyF.fin x, PyF.fin z, PyF.fin radius⟩] :=
  ⟨_, _, rfl⟩

theorem ring_step_fst_proj (ring_index count : ℕ) (radius base_angle : ℝ)
    (st : List Landmark × ℤ) (i : ℕ) :
    ((ring_step ring_index count radius base_angle st i).1).map
        (fun lm => (lm.ring, lm.index))
      = st.1.map (fun lm => (lm.ring, lm.index)) ++ [(ring_index, i)] := by
  obtain ⟨x, z, h⟩ := ring_step_fst ring_index count radius base_angle st i
  rw [h]
  simp

theorem ring_step_mem (ring_index count : ℕ) (radius base_angle : ℝ)
    (st : List Landmark × ℤ) (i : ℕ) (lm : Landmark)
    (h : lm ∈ (ring_step ring_index count radius base_angle st i).1) :
    lm ∈ st.1 ∨ (lm.ring = ring_index ∧ lm.radius = PyF.fin radius) := by
  obtain ⟨x, z, he⟩ := ring_step_fst ring_index count radius base_angle st i
  rw [he] at h
  rcases List.mem_append.mp h with h | h
  · exact Or.inl h
  · simp only [List.mem_singleton] at h
    subst h
    exact Or.inr ⟨rfl, rfl⟩

theorem fold_ring_step_proj (ring_index count : ℕ) (radius base_angle : ℝ) :
    ∀ (l : List ℕ) (st : List Landmark × ℤ),
      ((l.foldl (ring_step ring_index count radius base_angle) st).1).map
          (fun lm => (lm.ring, lm.index))
        = st.1.map (fun lm => (lm.ring, lm.index)) ++ l.map (fun i => (ring_index, i))
  | [], st => by simp
  | i :: l, st => by
    rw [List.foldl_cons, fold_ring_step_proj ring_index count radius base_angle l _,
      ring_step_fst_proj]
    simp

theorem fold_ring_step_mem (ring_index count : ℕ) (radius base_angle : ℝ) :
    ∀ (l : List ℕ) (st : List Landmark × ℤ) (lm : Landmark),
      lm ∈ (l.foldl (ring_step ring_index count radius base_angle) st).1 →
      lm ∈ st.1 ∨ (lm.ring = ring_index ∧ lm.radius = PyF.fin radius)
  | [], _, _, h => Or.inl h
  | i :: l, st, lm, h => by
    rw [List.foldl_cons] at h
    rcases fold_ring_step_mem ring_index count radius base_angle l _ lm h with h' | h'
    · exact ring_step_mem ring_index count radius base_angle st i lm h'
    · exact Or.inr h'

theorem fold_ring_step_state (ring_index count : ℕ) (radius base_angle : ℝ) :
    ∀ (l : List ℕ) (st : List Landmark × ℤ),
      0 ≤ st.2 ∧ st.2 < 2 ^ 48 →
      0 ≤ (l.foldl (ring_step ring_index count radius base_angle) st).2
        ∧ (l.foldl (ring_step ring_index count radius base_angle) st).2 < 2 ^ 48
  | [], _, h => h
  | i :: l, st, _ => by
    rw [List.foldl_cons]
    exact fold_ring_step_state ring_index count radius base_angle l _
      (by rw [ring_step_snd]; exact ⟨rng_next_nonneg _, rng_next_lt _⟩)

/-- `gen_ring` unfolded: the radius and base angle are drawn once from
the incoming state, then the inner loop runs on the advanced state. -/
theorem gen_ring_eq (ring_index count : ℕ) (r_min r_max : ℤ) (st : List Landmark × ℤ) :
    gen_ring ring_index count r_min r_max st
      = (List.range count).foldl
          (ring_step ring_index count
            ((r_min : ℝ) + (((rng_double st.2).1 : ℚ) : ℝ) * ((r_max : ℝ) - (r_min : ℝ)))
            ((((rng_double ((rng_double st.2).2)).1 : ℚ) : ℝ) * 2.0 * Real.pi))
          (st.1, (rng_double ((rng_double st.2).2)).2) := rfl

theorem gen_ring_proj (ring_index count : ℕ) (r_min r_max : ℤ) (st : List Landmark × ℤ) :
    ((gen_ring ring_index count r_min r_max st).1).map (fun lm => (lm.ring, lm.index))
      = st.1.map (fun lm => (lm.ring, lm.index))
        ++ (List.range count).map (fun i => (ring_index, i)) := by
  rw [gen_ring_eq, fold_ring_step_proj]

theorem gen_ring_mem (ring_index count : ℕ) (r_min r_max : ℤ) (st : List Landmark × ℤ)
    (lm : Landmark) (h : lm ∈ (gen_ring ring_index count r_min r_max st).1) :
    lm ∈ st.1 ∨ (lm.ring = ring_index
      ∧ ∃ q : ℚ, 0 ≤ q ∧ q < 1
        ∧ lm.radius = PyF.fin ((r_min : ℝ) + (q : ℝ) * ((r_max : ℝ) - (r_min : ℝ)))) := by
  rw [gen_ring_eq] at h
  rcases fold_ring_step_mem _ _ _ _ _ _ lm h with h' | h'
  · exact Or.inl h'
  · exact Or.inr ⟨h'.1, (rng_double st.2).1,
      (rng_double_unit st.2).1, (rng_double_unit st.2).2, h'.2⟩

theorem gen_ring_state (ring_index count : ℕ) (r_min r_max : ℤ) (st : List Landmark × ℤ) :
    0 ≤ (gen_ring ring_index count r_min r_max st).2
      ∧ (gen_ring ring_index count r_min r_max st).2 < 2 ^ 48 := by
  rw [gen_ring_eq]
  refine fold_ring_step_state _ _ _ _ _ _ ?_
  rw [show ((st.1, (rng_double ((rng_double st.2).2)).2) : List Landmark × ℤ).2
      = rng_next ((rng_double st.2).2) from rfl]
  exact ⟨rng_next_nonneg _, rng_next_lt _⟩

theorem config_enum_eq :
    (RING_STRONGHOLDS.zip RING_RADII).enum
      = [(0, (3, (1408, 2688))), (1, (6, (4480, 5760))), (2, (10, (7552, 8832))),
         (3, (15, (10624, 11904))), (4, (21, (13696, 14976))), (5, (28, (16768, 18048))),
         (6, (36, (19840, 21120))), (7, (9, (22912, 24192)))] := rfl

theorem generate_strongholds_run_eq (s : String) :
    generate_strongholds_run s
      = ((RING_STRONGHOLDS.zip RING_RADII).enum).foldl
          (fun st entry => gen_ring entry.1 entry.2.1 entry.2.2.1 entry.2.2.2 st)
          ([], initial_internal_seed (java_like_seed_from_string s)) := rfl

/-- The `(ring, index)` labels of the generated list do not depend on the
seed: they are exactly `ringIndexPairs`. -/
theorem generate_run_proj (s : String) :
    (generate_strongholds s).map (fun lm => (lm.ring, lm.index)) = ringIndexPairs := by
  rw [generate_strongholds, generate_strongholds_run_eq, config_enum_eq]
  simp only [List.foldl_cons, List.foldl_nil]
  simp only [gen_ring_proj]
  decide

/-- Every generated stronghold belongs to a configured ring and carries a
radius of the form `r_min + q * (r_max - r_min)` with `0 ≤ q < 1`. -/
theorem generate_run_mem (s : String) (lm : Landmark)
    (h : lm ∈ generate_strongholds s) :
    ∃ ri count r_min r_max, ((ri, (count, (r_min, r_max))) : ℕ × ℕ × ℤ × ℤ)
        ∈ (RING_STRONGHOLDS.zip RING_RADII).enum
      ∧ lm.ring = ri
      ∧ ∃ q : ℚ, 0 ≤ q ∧ q < 1
        ∧ lm.radius = PyF.fin ((r_min : ℝ) + (q : ℝ) * ((r_max : ℝ) - (r_min : ℝ))) := by
  rw [generate_strongholds, generate_strongholds_run_eq, config_enum_eq] at h
  simp only [List.foldl_cons, List.foldl_nil] at h
  rcases gen_ring_mem _ _ _ _ _ lm h with h | ⟨hr, hq⟩
  rotate_left
  · exact ⟨7, 9, 22912, 24192, by decide, hr, hq⟩
  rcases gen_ring_mem _ _ _ _ _ lm h with h | ⟨hr, hq⟩
  rotate_left
  · exact ⟨6, 36, 19840, 21120, by decide, hr, hq⟩
  rcases gen_ring_mem _ _ _ _ _ lm h with h | ⟨hr, hq⟩
  rotate_left
  · exact ⟨5, 28, 16768, 18048, by decide, hr, hq⟩
  rcases gen_ring_mem _ _ _ _ _ lm h with h | ⟨hr, hq⟩
  rotate_left
  · exact ⟨4, 21, 13696, 14976, by decide, hr, hq⟩
  rcases gen_ring_mem _ _ _ _ _ lm h with h | ⟨hr, hq⟩
  rotate_left
  · exact ⟨3, 15, 10624, 11904, by decide, hr, hq⟩
  rcases gen_ring_mem _ _ _ _ _ lm h with h | ⟨hr, hq⟩
  rotate_left
  · exact ⟨2, 10, 7552, 8832, by decide, hr, hq⟩
  rcases gen_ring_mem _ _ _ _ _ lm h with h | ⟨hr, hq⟩
  rotate_left
  · exact ⟨1, 6, 4480, 5760, by decide, hr, hq⟩
  rcases gen_ring_mem _ _ _ _ _ lm h with h | ⟨hr, hq⟩
  rotate_left
  · exact ⟨0, 3, 1408, 2688, by decide, hr, hq⟩
  simp at h

/-! ### Claim theorems: placement engine -/

/-- C1: generation is a pure deterministic function of the seed string
and the static ring configuration; two calls of
`generate_strongholds` on the same seed yield identical landmark
sequences — same length, same order, and identical `ring`, `index`,
`x`, `z` and `radius` values. -/
theorem generate_strongholds_deterministic (s : String) :
    generate_strongholds s = generate_strongholds s := rfl

set_option maxRecDepth 8000 in
/-- C4: for every seed string, the generated sequence has length equal to
the sum of the configured per-ring stronghold counts (`128` in this
configuration), and is ordered by ring index, then by index within the
ring. -/
theorem generate_strongholds_count_and_order (s : String) :
    (generate_strongholds s).length = RING_STRONGHOLDS.sum
    ∧ RING_STRONGHOLDS.sum = 128
    ∧ (generate_strongholds s).Pairwise
        (fun a b => a.ring < b.ring ∨ (a.ring = b.ring ∧ a.index < b.index)) := by
  have hp := generate_run_proj s
  have hl := congrArg List.length hp
  rw [List.length_map] at hl
  refine ⟨?_, by decide, ?_⟩
  · rw [hl]
    decide
  · have hpw : ringIndexPairs.Pairwise
        (fun p q => p.1 < q.1 ∨ (p.1 = q.1 ∧ p.2 < q.2)) := by decide
    rw [← hp] at hpw
    exact List.pairwise_map.mp hpw

/-- C4 has no proposition-typed hypothesis; this closed instance records
its content at the seed `"12345"`. -/
theorem generate_strongholds_count_and_order_witness :
    (generate_strongholds "12345").length = 128 := by
  have h := generate_strongholds_count_and_order "12345"
  rw [h.1, h.2.1]

/-- C5: every stronghold produced by `generate_strongholds` carries a
`radius` lying within its ring's configured `[r_min, r_max]` bounds,
inclusive at both ends. -/
theorem generate_strongholds_radius_in_ring_bounds (s : String) (lm : Landmark)
    (h : lm ∈ generate_strongholds s) :
    ∃ r_min r_max : ℤ, RING_RADII.get? lm.ring = some (r_min, r_max)
      ∧ ∃ r : ℝ, lm.radius = PyF.fin r ∧ (r_min : ℝ) ≤ r ∧ r ≤ (r_max : ℝ) := by
  obtain ⟨ri, count, r_min, r_max, hmem, hr, q, hq0, hq1, hrad⟩ := generate_run_mem s lm h
  have hq0' : (0 : ℝ) ≤ (q : ℝ) := by exact_mod_cast hq0
  have hq1' : (q : ℝ) < 1 := by exact_mod_cast hq1
  fin_cases hmem <;>
    exact ⟨_, _, by rw [hr]; rfl, _, hrad,
      by push_cast; nlinarith, by push_cast; nlinarith⟩

set_option maxRecDepth 8000 in
/-- Witness for C5: the first stronghold generated from seed `"0"`. -/
theorem generate_strongholds_radius_in_ring_bounds_witness :
    ∃ lm : Landmark, lm ∈ generate_strongholds "0"
      ∧ ∃ r_min r_max : ℤ, RING_RADII.get? lm.ring = some (r_min, r_max)
        ∧ ∃ r : ℝ, lm.radius = PyF.fin r ∧ (r_min : ℝ) ≤ r ∧ r ≤ (r_max : ℝ) := by
  have hp := generate_run_proj "0"
  have hl := congrArg List.length hp
  rw [List.length_map] at hl
  obtain ⟨lm, t, he⟩ : ∃ lm t, generate_strongholds "0" = lm :: t := by
    cases hgen : generate_strongholds "0" with
    | nil => rw [hgen] at hl; exact absurd hl (by decide)
    | cons a t => exact ⟨a, t, rfl⟩
  refine ⟨lm, ?_, ?_⟩
  · rw [he]; exact List.mem_cons_self lm t
  · exact generate_strongholds_radius_in_ring_bounds "0" lm
      (by rw [he]; exact List.mem_cons_self lm t)

/-- C10: the LCG advance lands in `[0, 2^48)` on every integer input
(negative or oversized included), the initial internal seed derived from
any normalized seed lies in `[0, 2^48)`, the state returned by
`rng_double` is the advanced state (hence in range), and the final state
of a whole generation run stays in `[0, 2^48)` — so every state threaded
through a run is a valid 48-bit value. -/
theorem rng_state_range_invariant :
    (∀ st : ℤ, 0 ≤ rng_next st ∧ rng_next st < 2 ^ 48)
    ∧ (∀ base : ℤ, 0 ≤ initial_internal_seed base ∧ initial_internal_seed base < 2 ^ 48)
    ∧ (∀ st : ℤ, 0 ≤ (rng_double st).2 ∧ (rng_double st).2 < 2 ^ 48)
    ∧ (∀ s : String, 0 ≤ (generate_strongholds_run s).2
        ∧ (generate_strongholds_run s).2 < 2 ^ 48) := by
  refine ⟨fun st => ⟨rng_next_nonneg st, rng_next_lt st⟩,
    initial_internal_seed_range,
    fun st => by rw [rng_double_snd]; exact ⟨rng_next_nonneg st, rng_next_lt st⟩,
    fun s => ?_⟩
  rw [generate_strongholds_run_eq, config_enum_eq]
  simp only [List.foldl_cons, List.foldl_nil]
  exact gen_ring_state _ _ _ _ _

/-! ### PyF computation lemmas -/

theorem PyF.sub_nan_left (x : PyF) : PyF.sub PyF.nan x = PyF.nan := by
  cases x <;> rfl

theorem PyF.sub_nan_right (x : PyF) : PyF.sub x PyF.nan = PyF.nan := by
  cases x <;> rfl

theorem PyF.mul_nan_left (x : PyF) : PyF.mul PyF.nan x = PyF.nan := by
  cases x <;> rfl

theorem PyF.mul_nan_right (x : PyF) : PyF.mul x PyF.nan = PyF.nan := by
  cases x <;> rfl

theorem PyF.add_nan_left (x : PyF) : PyF.add PyF.nan x = PyF.nan := by
  cases x <;> rfl

theorem PyF.add_nan_right (x : PyF) : PyF.add x PyF.nan = PyF.nan := by
  cases x <;> rfl

/-- A comparison that passes has finite operands in order. -/
theorem leb_fin : ∀ {d m : PyF}, d.leb m = true →
    ∃ v w : ℝ, d = PyF.fin v ∧ m = PyF.fin w ∧ v ≤ w
  | PyF.fin a, PyF.fin b, h => ⟨a, b, rfl, rfl, by simpa [PyF.leb] using h⟩
  | PyF.nan, PyF.fin _, h => by simp [PyF.leb] at h
  | PyF.nan, PyF.nan, h => by simp [PyF.leb] at h
  | PyF.fin _, PyF.nan, h => by simp [PyF.leb] at h

/-- Any finite value of `distance` is a square root, hence non-negative. -/
theorem distance_fin_nonneg {px pz x z : PyF} {u : ℝ}
    (h : distance px pz x z = PyF.fin u) : 0 ≤ u := by
  cases px <;> cases pz <;> cases x <;> cases z <;>
    simp [distance, PyF.sub, PyF.mul, PyF.add, PyF.sqrt] at h
  exact h ▸ Real.sqrt_nonneg _

/-- A NaN coordinate on either side makes the distance NaN. -/
theorem distance_nan_of_nan_coord (px pz : PyF) (sh : Landmark)
    (h : sh.x = PyF.nan ∨ sh.z = PyF.nan) :
    distance px pz sh.x sh.z = PyF.nan := by
  rcases h with h | h <;>
    simp [distance, h, PyF.sub_nan_left, PyF.mul_nan_left, PyF.mul_nan_right,
      PyF.add_nan_left, PyF.add_nan_right, PyF.sqrt]

theorem distance_zero :
    distance (PyF.fin 0) (PyF.fin 0) (PyF.fin 0) (PyF.fin 0) = PyF.fin 0 := by
  simp [distance, PyF.sub, PyF.mul, PyF.add, PyF.sqrt]

/-! ### The filtered result list -/

theorem mem_kept_results {strongholds : List Landmark} {px pz maxd : PyF}
    {r : QueryResult} :
    r ∈ kept_results strongholds px pz maxd ↔
      ∃ sh ∈ strongholds, (distance px pz sh.x sh.z).leb maxd = true
        ∧ r = QueryResult.ofLandmark sh (distance px pz sh.x sh.z) := by
  simp only [kept_results, List.mem_filterMap]
  constructor
  · rintro ⟨sh, hsh, he⟩
    by_cases hc : (distance px pz sh.x sh.z).leb maxd = true
    · rw [if_pos hc] at he
      exact ⟨sh, hsh, hc, (Option.some_injective _ he).symm⟩
    · rw [if_neg hc] at he
      exact absurd he (by simp)
  · rintro ⟨sh, hsh, hc, rfl⟩
    exact ⟨sh, hsh, by rw [if_pos hc]⟩

theorem kept_results_dist_fin {strongholds : List Landmark} {px pz maxd : PyF}
    {r : QueryResult} (h : r ∈ kept_results strongholds px pz maxd) :
    ∃ v : ℝ, r.distance = PyF.fin v := by
  obtain ⟨sh, _, hc, rfl⟩ := mem_kept_results.mp h
  obtain ⟨v, w, hd, _, _⟩ := leb_fin hc
  exact ⟨v, hd⟩

theorem distLebSub_trans (a b c : {r : QueryResult // FinDist r})
    (h1 : distLebSub a b = true) (h2 : distLebSub b c = true) :
    distLebSub a c = true := by
  obtain ⟨a, va, ha⟩ := a
  obtain ⟨b, vb, hb⟩ := b
  obtain ⟨c, vc, hc⟩ := c
  simp only [distLebSub, distLeb, ha, hb, hc, PyF.leb, decide_eq_true_eq] at h1 h2 ⊢
  exact le_trans h1 h2

theorem distLebSub_total (a b : {r : QueryResult // FinDist r}) :
    (distLebSub a b || distLebSub b a) = true := by
  obtain ⟨a, va, ha⟩ := a
  obtain ⟨b, vb, hb⟩ := b
  simp only [distLebSub, distLeb, ha, hb, PyF.leb, Bool.or_eq_true, decide_eq_true_eq]
  exact le_total va vb

/-- Sorting a list of all-finite-distance results by `distLeb` yields a
sorted permutation, stably: any `distLeb`-ordered pair sublist of the
input survives as a sublist of the output. -/
theorem mergeSort_by_dist (l : List QueryResult) (hf : ∀ r ∈ l, FinDist r) :
    (l.mergeSort distLeb).Pairwise (fun r s => distLeb r s = true)
    ∧ ∀ c : List QueryResult,
        c.Pairwise (fun r s => distLeb r s = true) →
        c.Sublist l →
        c.Sublist (l.mergeSort distLeb) := by
  have hmapval : (l.attachWith FinDist hf).map Subtype.val = l :=
    List.attachWith_map_subtype_val l hf
  have hmap : ((l.attachWith FinDist hf).mergeSort distLebSub).map Subtype.val
      = l.mergeSort distLeb := by
    rw [@List.map_mergeSort {r : QueryResult // FinDist r} QueryResult distLebSub
      distLeb Subtype.val (l.attachWith FinDist hf) (fun a _ b _ => rfl), hmapval]
  constructor
  · rw [← hmap]
    have hs := List.sorted_mergeSort distLebSub_trans distLebSub_total
      (l.attachWith FinDist hf)
    exact hs.map Subtype.val (fun a b h => h)
  · intro c hcpw hcsub
    rw [← hmapval] at hcsub
    obtain ⟨c', hc'sub, rfl⟩ := List.sublist_map_iff.mp hcsub
    have hc'pw : c'.Pairwise (fun a b => distLebSub a b = true) :=
      List.pairwise_map.mp hcpw
    have hsub2 := List.sublist_mergeSort distLebSub_trans distLebSub_total hc'pw hc'sub
    rw [← hmap]
    exact hsub2.map Subtype.val

theorem leb_zero_one : PyF.leb (PyF.fin 0) (PyF.fin 1) = true := by
  simp [PyF.leb]

/-- Concrete evaluation: two strongholds at the query point, the second
with a NaN radius; both pass the `d <= 1` filter with distance `0`. -/
theorem kept_results_example_pair :
    kept_results [(⟨0, 0, PyF.fin 0, PyF.fin 0, PyF.fin 5⟩ : Landmark),
        ⟨1, 1, PyF.fin 0, PyF.fin 0, PyF.nan⟩] (PyF.fin 0) (PyF.fin 0) (PyF.fin 1)
      = [⟨0, 0, PyF.fin 0, PyF.fin 0, PyF.fin 5, PyF.fin 0⟩,
         ⟨1, 1, PyF.fin 0, PyF.fin 0, PyF.nan, PyF.fin 0⟩] := by
  simp [kept_results, List.filterMap_cons, distance_zero, leb_zero_one,
    QueryResult.ofLandmark]

/-- Concrete evaluation: a single stronghold at the query point with a
NaN radius passes the `d <= 1` filter with distance `0`. -/
theorem kept_results_example_nan :
    kept_results [(⟨1, 1, PyF.fin 0, PyF.fin 0, PyF.nan⟩ : Landmark)]
      (PyF.fin 0) (PyF.fin 0) (PyF.fin 1)
      = [⟨1, 1, PyF.fin 0, PyF.fin 0, PyF.nan, PyF.fin 0⟩] := by
  simp [kept_results, List.filterMap_cons, distance_zero, leb_zero_one,
    QueryResult.ofLandmark]

/-! ### Claim theorems: proximity query engine -/

/-- C3: `find_nearby_strongholds` returns exactly the strongholds whose
distance to the reference point passes `d <= max_distance` — its output
is characterised by membership and is a permutation of the filtered
input — ordered ascending by distance, and stably: any pair that is in
order (in particular any tie) keeps its input order. -/
theorem find_nearby_filter_sort_spec (strongholds : List Landmark) (px pz maxd : PyF) :
    (∀ r : QueryResult, r ∈ find_nearby_strongholds strongholds px pz maxd ↔
        ∃ sh ∈ strongholds, (distance px pz sh.x sh.z).leb maxd = true
          ∧ r = QueryResult.ofLandmark sh (distance px pz sh.x sh.z))
    ∧ List.Perm (find_nearby_strongholds strongholds px pz maxd)
        (kept_results strongholds px pz maxd)
    ∧ (find_nearby_strongholds strongholds px pz maxd).Pairwise
        (fun r s => distLeb r s = true)
    ∧ ∀ a b : QueryResult,
        List.Sublist [a, b] (kept_results strongholds px pz maxd) →
        distLeb a b = true →
        List.Sublist [a, b] (find_nearby_strongholds strongholds px pz maxd) := by
  have hf : ∀ r ∈ kept_results strongholds px pz maxd, FinDist r :=
    fun r hr => kept_results_dist_fin hr
  obtain ⟨hpw, hstable⟩ := mergeSort_by_dist _ hf
  refine ⟨?_, List.mergeSort_perm _ _, hpw, ?_⟩
  · intro r
    simp only [find_nearby_strongholds, List.mem_mergeSort]
    exact mem_kept_results
  · intro a b hsub hle
    exact hstable [a, b] (List.pairwise_pair.mpr hle) hsub

/-- Witness for C3: two equal-distance strongholds keep their input
order in the sorted output, and the output is a permutation of the
filtered list. -/
theorem find_nearby_filter_sort_spec_witness :
    List.Perm
      (find_nearby_strongholds
        [(⟨0, 0, PyF.fin 0, PyF.fin 0, PyF.fin 5⟩ : Landmark),
         ⟨1, 1, PyF.fin 0, PyF.fin 0, PyF.nan⟩]
        (PyF.fin 0) (PyF.fin 0) (PyF.fin 1))
      (kept_results
        [(⟨0, 0, PyF.fin 0, PyF.fin 0, PyF.fin 5⟩ : Landmark),
         ⟨1, 1, PyF.fin 0, PyF.fin 0, PyF.nan⟩]
        (PyF.fin 0) (PyF.fin 0) (PyF.fin 1))
    ∧ List.Sublist
        [(⟨0, 0, PyF.fin 0, PyF.fin 0, PyF.fin 5, PyF.fin 0⟩ : QueryResult),
         ⟨1, 1, PyF.fin 0, PyF.fin 0, PyF.nan, PyF.fin 0⟩]
        (find_nearby_strongholds
          [(⟨0, 0, PyF.fin 0, PyF.fin 0, PyF.fin 5⟩ : Landmark),
           ⟨1, 1, PyF.fin 0, PyF.fin 0, PyF.nan⟩]
          (PyF.fin 0) (PyF.fin 0) (PyF.fin 1)) := by
  have h := find_nearby_filter_sort_spec
    [(⟨0, 0, PyF.fin 0, PyF.fin 0, PyF.fin 5⟩ : Landmark),
     ⟨1, 1, PyF.fin 0, PyF.fin 0, PyF.nan⟩] (PyF.fin 0) (PyF.fin 0) (PyF.fin 1)
  refine ⟨h.2.1, h.2.2.2 _ _ ?_ ?_⟩
  · rw [kept_results_example_pair]
  · simp [distLeb, PyF.leb]

/-- C8 counterexample: a stronghold whose `radius` is NaN but whose
coordinates are finite gets a finite distance (`0` here) and is
included in the result — a NaN radius input neither produces a
non-finite distance nor causes exclusion. -/
theorem find_nearby_nan_radius_counterexample :
    ∃ r ∈ find_nearby_strongholds
        [(⟨1, 1, PyF.fin 0, PyF.fin 0, PyF.nan⟩ : Landmark)]
        (PyF.fin 0) (PyF.fin 0) (PyF.fin 1),
      r.radius = PyF.nan ∧ r.distance = PyF.fin 0 := by
  refine ⟨⟨1, 1, PyF.fin 0, PyF.fin 0, PyF.nan, PyF.fin 0⟩, ?_, rfl, rfl⟩
  simp only [find_nearby_strongholds, List.mem_mergeSort]
  rw [kept_results_example_nan]
  exact List.mem_singleton_self _

/-- C8 amended: the proximity query is total and yields an empty result
on degenerate input — a negative `max_distance` or an empty collection
returns `[]`, not an error; a NaN `x` or `z` coordinate of a stronghold
makes its distance NaN, and every NaN distance fails the
`d <= max_distance` test, so each returned entry has a finite distance.
(A NaN `radius` does not enter the distance computation and does not
cause exclusion.) -/
theorem find_nearby_degenerate_and_nan (strongholds : List Landmark) (px pz maxd : PyF) :
    (∀ v : ℝ, maxd = PyF.fin v → v < 0 →
      find_nearby_strongholds strongholds px pz maxd = [])
    ∧ find_nearby_strongholds [] px pz maxd = []
    ∧ (∀ sh : Landmark, sh.x = PyF.nan ∨ sh.z = PyF.nan →
        distance px pz sh.x sh.z = PyF.nan)
    ∧ (∀ r ∈ find_nearby_strongholds strongholds px pz maxd,
        ∃ u : ℝ, r.distance = PyF.fin u) := by
  refine ⟨?_, ?_, distance_nan_of_nan_coord px pz, ?_⟩
  · intro v hv hneg
    have hk : kept_results strongholds px pz maxd = [] := by
      rw [kept_results, List.filterMap_eq_nil_iff]
      intro sh _
      show (if (distance px pz sh.x sh.z).leb maxd = true
          then some (QueryResult.ofLandmark sh (distance px pz sh.x sh.z)) else none) = none
      rw [if_neg]
      intro hc
      obtain ⟨u, w, hd, hw, hle⟩ := leb_fin hc
      have h0 : (0 : ℝ) ≤ u := distance_fin_nonneg hd
      rw [hv] at hw
      injection hw with hvw
      linarith [hle, hvw ▸ hneg]
    simp only [find_nearby_strongholds, hk, List.mergeSort_nil]
  · simp [find_nearby_strongholds, kept_results]
  · intro r hr
    simp only [find_nearby_strongholds, List.mem_mergeSort] at hr
    exact kept_results_dist_fin hr

/-- Witness for C8 amended: a negative search radius yields an empty
result on a non-empty collection, and an empty collection yields an
empty result. -/
theorem find_nearby_degenerate_and_nan_witness :
    find_nearby_strongholds [(⟨0, 0, PyF.fin 0, PyF.fin 0, PyF.fin 5⟩ : Landmark)]
      (PyF.fin 0) (PyF.fin 0) (PyF.fin (-1)) = []
    ∧ find_nearby_strongholds [] (PyF.fin 0) (PyF.fin 0) (PyF.fin 1) = [] := by
  constructor
  · exact (find_nearby_degenerate_and_nan
      [⟨0, 0, PyF.fin 0, PyF.fin 0, PyF.fin 5⟩]
      (PyF.fin 0) (PyF.fin 0) (PyF.fin (-1))).1 (-1) rfl (by norm_num)
  · exact (find_nearby_degenerate_and_nan [] (PyF.fin 0) (PyF.fin 0) (PyF.fin 1)).2.1

/-- C9: the query mutates nothing: it is embedded as a pure function of
its arguments, each returned entry is a fresh `QueryResult` record (the
`dict(sh)` copy with the added distance), and stripping the added
distance from any returned entry yields a stronghold record that occurs
unchanged in the input collection. -/
theorem find_nearby_no_mutation (strongholds : List Landmark) (px pz maxd : PyF)
    (r : QueryResult) (h : r ∈ find_nearby_strongholds strongholds px pz maxd) :
    r.toLandmark ∈ strongholds := by
  simp only [find_nearby_strongholds, List.mem_mergeSort] at h
  obtain ⟨sh, hsh, _, rfl⟩ := mem_kept_results.mp h
  exact hsh

/-- Witness for C9 at a singleton collection. -/
theorem find_nearby_no_mutation_witness :
    ((⟨1, 1, PyF.fin 0, PyF.fin 0, PyF.nan, PyF.fin 0⟩ : QueryResult)).toLandmark
      ∈ [(⟨1, 1, PyF.fin 0, PyF.fin 0, PyF.nan⟩ : Landmark)] := by
  apply find_nearby_no_mutation [(⟨1, 1, PyF.fin 0, PyF.fin 0, PyF.nan⟩ : Landmark)]
    (PyF.fin 0) (PyF.fin 0) (PyF.fin 1)
  simp only [find_nearby_strongholds, List.mem_mergeSort]
  rw [kept_results_example_nan]
  exact List.mem_singleton_self _
